import Mathlib

/-
Verification of the frame-extraction / archive-building core of the
video_img repository (source file vidéo_img.py).

Shallow embedding conventions:
* A video byte stream opened through cv2.VideoCapture is modelled as a
  `Video`: the (finite) list of frames that successive cap.read() calls
  yield, together with the container metadata cap.get(CAP_PROP_FPS)
  (a float) and int(cap.get(CAP_PROP_FRAME_COUNT)) (an integer,
  possibly inaccurate — some containers misreport it).
* Python floats are modelled as exact fractions (PyFloat, an integer
  numerator/denominator pair, un-normalised so that every operation is
  a plain integer computation); the rational value of such a fraction
  is recovered by PyFloat.toRat.  Python int() on a float truncates
  toward zero (Int.tdiv); Python % on integers is floor-style modulo
  (result has the sign of the divisor), i.e. Int.fmod.
* A frame's pixel data is modelled abstractly as a list of naturals;
  cv2.imwrite's JPEG encoding is a deterministic pure function of the
  pixel data, so frame contents are modelled up to that encoding.
* Python exceptions are explicit: ZeroDivisionError is the only
  exception the extraction loop itself can raise.  The loop's
  filesystem side effects (the files written so far) are kept even
  when an exception aborts the loop, mirroring the real process state.
-/

/-- Exact fraction model of a Python float: numerator and denominator
(denominator nonzero for every value actually constructed). -/
structure PyFloat where
  num : ℤ
  den : ℤ
deriving DecidableEq

/-- Float multiplication (exact): multiply numerators and denominators. -/
def PyFloat.mul (a b : PyFloat) : PyFloat := ⟨a.num * b.num, a.den * b.den⟩

/-- Comparison a <= b on fractions by cross-multiplication with the
squares of the denominators (so signs of denominators do not matter). -/
def PyFloat.leB (a b : PyFloat) : Bool :=
  decide (a.num * a.den * (b.den * b.den) ≤ b.num * b.den * (a.den * a.den))

/-- Python min of two floats: the first argument when a <= b, else the
second. -/
def PyFloat.minF (a b : PyFloat) : PyFloat := if a.leB b then a else b

/-- Rational value denoted by a fraction (spec-side only). -/
def PyFloat.toRat (a : PyFloat) : ℚ := (a.num : ℚ) / (a.den : ℚ)

/-- Embedding of an integer literal as a Python float. -/
def PyFloat.ofInt (n : ℤ) : PyFloat := ⟨n, 1⟩

/-- Python int() applied to a float: truncation toward zero. -/
def pyTrunc (a : PyFloat) : ℤ := a.num.tdiv a.den

/-- Pixel data of one decoded frame (abstract bytes). -/
def Frame := List ℕ
deriving DecidableEq, Inhabited

/-- A video source as seen through cv2.VideoCapture: the frames that
cap.read() yields in order, the CAP_PROP_FPS metadata and the
int(CAP_PROP_FRAME_COUNT) metadata (unreliable in some containers). -/
structure Video where
  frames : List Frame
  fps : PyFloat
  declaredTotal : ℤ

/-- The frame step the source computes on line 19:
frame_interval = int(fps * interval_seconds). -/
def frameStep (fps interval_seconds : PyFloat) : ℤ := pyTrunc (fps.mul interval_seconds)

/-- Decimal representation of k padded with zeros to width at least 4,
Python's f-string format specifier 04d applied to a nonnegative int. -/
def pad4 (k : ℕ) : String :=
  let s := toString k
  String.mk (List.replicate (4 - s.length) '0') ++ s

/-- Output file name built on line 34: frame_ followed by the padded
sequence number followed by .jpg. -/
def frameFilename (k : ℕ) : String := "frame_" ++ pad4 k ++ ".jpg"

/-- The only exception the extraction loop can raise by itself:
an integer or float division/modulo with zero divisor. -/
inductive PyError where
  | zeroDivisionError
deriving DecidableEq

/-- Mutable state of the sampling loop: the two counters, the images
written so far (file name paired with content, in write order) and the
progress fractions handed to progress_bar.progress so far. -/
structure LoopState where
  frame_count : ℕ
  saved_count : ℕ
  saved : List (String × Frame)
  progress : List PyFloat
deriving DecidableEq

/-- State before the first loop iteration (lines 21-22). -/
def initState : LoopState := ⟨0, 0, [], []⟩

/-- One iteration of the while-loop body (lines 28-43) for a frame that
cap.read() returned successfully.  Mirrors the statement order of the
source: the modulo test (raises ZeroDivisionError when frame_interval
is 0), the conditional imwrite and saved_count increment, the
frame_count increment, then progress = frame_count / total_frames
(raises ZeroDivisionError when total_frames is 0) and the clamped
progress_bar.progress(min(progress, 1.0)) call. -/
def stepFrame (fi total : ℤ) (st : LoopState) (f : Frame) : LoopState × Option PyError :=
  if fi = 0 then (st, some .zeroDivisionError)
  else
    let st1 :=
      if Int.fmod (st.frame_count : ℤ) fi = 0 then
        { st with
          saved := st.saved ++ [(frameFilename st.saved_count, f)],
          saved_count := st.saved_count + 1 }
      else st
    let st2 := { st1 with frame_count := st1.frame_count + 1 }
    if total = 0 then (st2, some .zeroDivisionError)
    else
      ({ st2 with
          progress := st2.progress ++
            [PyFloat.minF ⟨(st2.frame_count : ℤ), total⟩ ⟨1, 1⟩] },
       none)

/-- The while True loop (lines 27-43): consume the remaining frames in
order, stopping when cap.read() fails (list exhausted) or an exception
aborts the loop.  The state reached so far is kept in either case. -/
def runLoop (fi total : ℤ) (st : LoopState) : List Frame → LoopState × Option PyError
  | [] => (st, none)
  | f :: fs =>
    match stepFrame fi total st f with
    | (st1, some e) => (st1, some e)
    | (st1, none) => runLoop fi total st1 fs

/-- Observable outcome of one call to extract_frames_from_video: the
final loop state (the files on disk and counters), the exception that
escaped, if any, and the Python return value (saved_count, output_dir)
when no exception escaped. -/
structure ExtractOutcome where
  state : LoopState
  error : Option PyError
  ret : Option (ℕ × String)
deriving DecidableEq

/-- The function extract_frames_from_video (lines 9-46): compute
frame_interval = int(fps * interval_seconds), read
total_frames = int(cap.get(CAP_PROP_FRAME_COUNT)), run the sampling
loop over the consumable frames, and return (saved_count, output_dir)
if no exception was raised. -/
def extract_frames_from_video (v : Video) (interval_seconds : PyFloat) (output_dir : String) :
    ExtractOutcome :=
  let fi := frameStep v.fps interval_seconds
  let total := v.declaredTotal
  let r := runLoop fi total initState v.frames
  { state := r.1
    error := r.2
    ret := match r.2 with
           | some _ => none
           | none => some (r.1.saved_count, output_dir) }

/-- Frame indices below n whose floor-modulo by the frame step is 0,
i.e. exactly the indices the loop persists. -/
def hitsBelow (fi : ℤ) (n : ℕ) : List ℕ :=
  (List.range n).filter (fun i => decide (Int.fmod (i : ℤ) fi = 0))

/-- The images on disk after n frames have been consumed: one image per
hit index i, named with the number of hits strictly before i (the next
free output sequence number at the moment i was saved). -/
def savedOfI (fi : ℤ) (frames : List Frame) (n : ℕ) : List (String × Frame) :=
  (hitsBelow fi n).map
    (fun i => (frameFilename (hitsBelow fi i).length, frames.getD i []))

/-- The progress fractions emitted after each of the first n consumed
frames: min((j+1) / total_frames, 1.0) for j = 0, ..., n-1. -/
def progList (total : ℤ) (n : ℕ) : List PyFloat :=
  (List.range n).map (fun j => PyFloat.minF ⟨((j + 1 : ℕ) : ℤ), total⟩ ⟨1, 1⟩)

/-- Ceiling division on naturals, the spec's ceil(a / b). -/
def ceilDiv (a b : ℕ) : ℕ := (a + b - 1) / b

/-- Frame indices below n that are exact multiples of the step S,
the natural-number counterpart of hitsBelow for a positive step. -/
def hitsN (S n : ℕ) : List ℕ := (List.range n).filter (fun i => decide (i % S = 0))

/-- A directory tree as the filesystem presents it to os.walk.  A
directory's entries are encoded as a cons-list spine (dirCons/dirNil):
each entry pairs a name (one path component, as os.listdir returns it)
with either a regular file (with its byte content) or a subdirectory.
The spine order models the filesystem-dependent os.listdir order. -/
inductive FSTree where
  | file (content : List ℕ)
  | dirNil
  | dirCons (name : String) (child : FSTree) (rest : FSTree)
deriving DecidableEq

/-- The regular files below a node, with their paths relative to that
node (a nonempty list of components) and their contents.  os.walk on a
directory enumerates every regular file below it exactly once, and
os.walk on a non-directory path yields nothing; the enumeration order
is filesystem-dependent and the embedding fixes one order (no claim
depends on it, the spec leaves traversal order open). -/
def walkTree : FSTree → List (List String × List ℕ)
  | .file _ => []
  | .dirNil => []
  | .dirCons n (.file c) rest => ([n], c) :: walkTree rest
  | .dirCons n child rest =>
      (walkTree child).map (fun p => (n :: p.1, p.2)) ++ walkTree rest

/-- Number of regular files strictly below a node. -/
def countFiles : FSTree → ℕ
  | .file _ => 0
  | .dirNil => 0
  | .dirCons _ (.file _) rest => 1 + countFiles rest
  | .dirCons _ child rest => countFiles child + countFiles rest

/-- Names of the entries on a directory spine. -/
def namesOf : FSTree → List String
  | .dirCons n _ rest => n :: namesOf rest
  | _ => []

/-- A well-formed directory entry name as a real filesystem returns
it: nonempty, not one of the special entries . and .. (os.listdir
never returns those), and free of the POSIX path separator. -/
def validNameB (s : String) : Bool :=
  !(s.data.isEmpty) && !(s == ".") && !(s == "..") && !(s.data.contains '/')

/-- Well-formedness of a directory tree: every entry name on every
spine is a well-formed file name and sibling names are pairwise
distinct (a directory cannot hold two entries with the same name). -/
def validTreeB : FSTree → Bool
  | .file _ => true
  | .dirNil => true
  | .dirCons n child rest =>
      validNameB n && !(decide (n ∈ namesOf rest)) && validTreeB child && validTreeB rest

/-- Joining of relative path components with the POSIX separator, the
arcname os.path.relpath(os.path.join(root, file), folder_path)
produces for a file below folder_path. -/
def joinRel : List String → String
  | [] => ""
  | [c] => c
  | c :: rest => c ++ "/" ++ joinRel rest

/-- Entry list of the archive built from a folder (lines 54-59): one
entry per walked regular file, named by the file's path relative to
the packaged root and holding the file's bytes.  ZIP_DEFLATED
compression is lossless, so an entry's stored content is modelled by
the original bytes. -/
def zipEntries (folder : FSTree) : List (String × List ℕ) :=
  (walkTree folder).map (fun p => (joinRel p.1, p.2))

/-- os.path.join of a directory and a relative name. -/
def joinPath (dir name : String) : String := dir ++ "/" ++ name

/-- The function create_zip_from_folder (lines 48-61): the archive
path is the process temporary directory joined with zip_name (the
tmpdir parameter stands for tempfile.gettempdir(), constant within a
process and independent of folder_path), and the archive holds one
entry per regular file under folder_path. -/
def create_zip_from_folder (tmpdir : String) (folder : FSTree) (zip_name : String) :
    String × List (String × List ℕ) :=
  (joinPath tmpdir zip_name, zipEntries folder)

/-- Witness tree for the archive claims: a/ (file, 2 bytes) and
sub/b (file, 1 byte). -/
def sampleTree : FSTree :=
  .dirCons "a" (.file [1, 2])
    (.dirCons "sub" (.dirCons "b" (.file [3]) .dirNil) .dirNil)

/-- Files in the process temporary directory, newest first; opening
zipfile.ZipFile(path, w) truncates any existing file at path, so a
write replaces the previous entry at the same path. -/
def TempFS : Type := List (String × List (String × List ℕ))

/-- Writing an archive file at a path in the temporary directory. -/
def writeTempFile (fs : TempFS) (path : String) (content : List (String × List ℕ)) :
    TempFS :=
  (path, content) :: List.filter (fun e => !(e.1 == path)) fs

/-- Reading the archive file currently stored at a path. -/
def lookupTempFile (fs : TempFS) (path : String) : Option (List (String × List ℕ)) :=
  (List.find? (fun e => e.1 == path) fs).map Prod.snd

/-- One call of create_zip_from_folder observed together with its
effect on the temporary directory. -/
def create_zip_run (fs : TempFS) (tmpdir : String) (folder : FSTree) (zip_name : String) :
    String × TempFS :=
  ((create_zip_from_folder tmpdir folder zip_name).1,
    writeTempFile fs (create_zip_from_folder tmpdir folder zip_name).1
      (create_zip_from_folder tmpdir folder zip_name).2)

theorem runLoop_append (fi total : ℤ) (st : LoopState) (a b : List Frame) :
    runLoop fi total st (a ++ b) =
      match runLoop fi total st a with
      | (st1, none) => runLoop fi total st1 b
      | (st1, some e) => (st1, some e) := by
  induction a generalizing st with
  | nil => simp [runLoop]
  | cons f fs ih =>
    simp only [List.cons_append, runLoop]
    rcases h : stepFrame fi total st f with ⟨st1, e⟩
    cases e <;> simp [ih]

theorem hitsBelow_succ (fi : ℤ) (n : ℕ) :
    hitsBelow fi (n + 1) =
      hitsBelow fi n ++ if Int.fmod (n : ℤ) fi = 0 then [n] else [] := by
  by_cases h : Int.fmod (n : ℤ) fi = 0 <;>
    simp [hitsBelow, List.range_succ, List.filter_append, h]

theorem savedOfI_succ (fi : ℤ) (frames : List Frame) (n : ℕ) :
    savedOfI fi frames (n + 1) =
      savedOfI fi frames n ++
        if Int.fmod (n : ℤ) fi = 0 then
          [(frameFilename (hitsBelow fi n).length, frames.getD n [])]
        else [] := by
  by_cases h : Int.fmod (n : ℤ) fi = 0 <;>
    simp [savedOfI, hitsBelow_succ, h]

theorem progList_succ (total : ℤ) (n : ℕ) :
    progList total (n + 1) =
      progList total n ++ [PyFloat.minF ⟨((n + 1 : ℕ) : ℤ), total⟩ ⟨1, 1⟩] := by
  simp [progList, List.range_succ]

set_option maxRecDepth 4000 in
theorem runLoop_take (fi total : ℤ) (hfi : fi ≠ 0) (htot : total ≠ 0)
    (frames : List Frame) :
    ∀ n, n ≤ frames.length →
      runLoop fi total initState (frames.take n) =
        (⟨n, (hitsBelow fi n).length, savedOfI fi frames n, progList total n⟩, none) := by
  intro n
  induction n with
  | zero =>
    intro _
    simp [runLoop, initState, hitsBelow, savedOfI, progList]
  | succ n ih =>
    intro hn
    have hn' : n < frames.length := hn
    have htake : frames.take (n + 1) = frames.take n ++ [frames[n]] := by
      rw [List.take_succ, List.getElem?_eq_getElem hn', Option.toList_some]
    rw [htake, runLoop_append, ih (le_of_lt hn')]
    simp only [runLoop, stepFrame, if_neg hfi, if_neg htot]
    rw [hitsBelow_succ, savedOfI_succ, progList_succ,
      List.getD_eq_getElem frames [] hn']
    by_cases h : Int.fmod (n : ℤ) fi = 0 <;> simp [h]

theorem runLoop_full (fi total : ℤ) (hfi : fi ≠ 0) (htot : total ≠ 0)
    (frames : List Frame) :
    runLoop fi total initState frames =
      (⟨frames.length, (hitsBelow fi frames.length).length,
        savedOfI fi frames frames.length, progList total frames.length⟩, none) := by
  have h := runLoop_take fi total hfi htot frames frames.length le_rfl
  rwa [List.take_length] at h

theorem runLoop_total_zero (fi : ℤ) (hfi : fi ≠ 0) (f : Frame) (fs : List Frame) :
    runLoop fi 0 initState (f :: fs) =
      (⟨1, 1, [(frameFilename 0, f)], []⟩, some .zeroDivisionError) := by
  simp [runLoop, stepFrame, if_neg hfi, initState]

theorem runLoop_fi_zero (total : ℤ) (f : Frame) (fs : List Frame) :
    runLoop 0 total initState (f :: fs) = (initState, some .zeroDivisionError) := by
  simp [runLoop, stepFrame]

theorem hitsN_succ (S n : ℕ) :
    hitsN S (n + 1) = hitsN S n ++ if n % S = 0 then [n] else [] := by
  by_cases h : n % S = 0 <;> simp [hitsN, List.range_succ, h]

theorem hitsBelow_coe (S n : ℕ) : hitsBelow (S : ℤ) n = hitsN S n := by
  unfold hitsBelow hitsN
  apply List.filter_congr
  intro i _
  rw [decide_eq_decide, ← Int.ofNat_fmod]
  exact_mod_cast Iff.rfl

theorem ceilDiv_succ (n S : ℕ) (hS : 0 < S) :
    ceilDiv (n + 1) S = ceilDiv n S + if n % S = 0 then 1 else 0 := by
  obtain ⟨S', rfl⟩ : ∃ S', S = S' + 1 := ⟨S - 1, by omega⟩
  obtain ⟨q, r, hr, rfl⟩ : ∃ q r, r < S' + 1 ∧ n = (S' + 1) * q + r :=
    ⟨n / (S' + 1), n % (S' + 1), Nat.mod_lt _ (by omega),
      (Nat.div_add_mod n (S' + 1)).symm⟩
  have hmod : ((S' + 1) * q + r) % (S' + 1) = r := by
    rw [Nat.mul_add_mod, Nat.mod_eq_of_lt hr]
  have hA : ∀ m : ℕ, m + r + 1 + (S' + 1) - 1 = m + (r + (S' + 1)) := by
    intro m; omega
  have hA2 : (r + (S' + 1)) / (S' + 1) = 1 := by
    rw [Nat.add_div_right _ (by omega), Nat.div_eq_of_lt hr]
  unfold ceilDiv
  rw [hmod, hA, Nat.mul_add_div (by omega), hA2]
  by_cases h0 : r = 0
  · have hB : ∀ m : ℕ, m + r + (S' + 1) - 1 = m + S' := by intro m; omega
    rw [if_pos h0, hB, Nat.mul_add_div (by omega),
      Nat.div_eq_of_lt (by omega : S' < S' + 1)]
  · obtain ⟨r', rfl⟩ : ∃ r', r = r' + 1 := ⟨r - 1, by omega⟩
    have hB : ∀ m : ℕ, m + (r' + 1) + (S' + 1) - 1 = m + (r' + (S' + 1)) := by
      intro m; omega
    rw [if_neg h0, hB, Nat.mul_add_div (by omega),
      Nat.add_div_right _ (by omega), Nat.div_eq_of_lt (by omega : r' < S' + 1)]

theorem ceilDiv_zero_left (S : ℕ) (hS : 0 < S) : ceilDiv 0 S = 0 := by
  unfold ceilDiv
  rw [Nat.zero_add, Nat.div_eq_of_lt (by omega)]

theorem hitsN_length (S n : ℕ) (hS : 0 < S) : (hitsN S n).length = ceilDiv n S := by
  induction n with
  | zero => simp [hitsN, ceilDiv_zero_left S hS]
  | succ n ih =>
    rw [hitsN_succ, List.length_append, ih, ceilDiv_succ n S hS]
    by_cases h : n % S = 0 <;> simp [h]

theorem ceilDiv_of_mod_eq_zero (n S : ℕ) (hS : 0 < S) (h : n % S = 0) :
    ceilDiv n S = n / S := by
  obtain ⟨q, rfl⟩ : ∃ q, n = S * q := (Nat.dvd_of_mod_eq_zero h).elim (fun q hq => ⟨q, hq⟩)
  have hB : ∀ m : ℕ, m + S - 1 = m + (S - 1) := by intro m; omega
  unfold ceilDiv
  rw [hB, Nat.mul_add_div hS, Nat.div_eq_of_lt (by omega : S - 1 < S),
    Nat.mul_div_cancel_left q hS]
  omega

theorem hitsN_eq_map (S n : ℕ) (hS : 0 < S) :
    hitsN S n = (List.range (ceilDiv n S)).map (fun k => k * S) := by
  induction n with
  | zero => simp [hitsN, ceilDiv_zero_left S hS]
  | succ n ih =>
    rw [hitsN_succ, ceilDiv_succ n S hS, ih]
    by_cases h : n % S = 0
    · have hc : ceilDiv n S * S = n := by
        rw [ceilDiv_of_mod_eq_zero n S hS h]
        exact Nat.div_mul_cancel (Nat.dvd_of_mod_eq_zero h)
      simp [h, List.range_succ, hc]
    · simp [h]

theorem toRat_mul (a b : PyFloat) : (a.mul b).toRat = a.toRat * b.toRat := by
  unfold PyFloat.mul PyFloat.toRat
  push_cast
  rw [div_mul_div_comm]

theorem toRat_sq (a : PyFloat) :
    a.toRat = ((a.num * a.den : ℤ) : ℚ) / ((a.den * a.den : ℤ) : ℚ) := by
  unfold PyFloat.toRat
  push_cast
  rcases eq_or_ne ((a.den : ℚ)) 0 with h | h
  · simp [h]
  · rw [mul_div_mul_right _ _ h]

theorem leB_iff_toRat_le (a b : PyFloat) (ha : a.den ≠ 0) (hb : b.den ≠ 0) :
    a.leB b = true ↔ a.toRat ≤ b.toRat := by
  unfold PyFloat.leB
  rw [decide_eq_true_eq, toRat_sq a, toRat_sq b]
  have ha2 : (0 : ℚ) < ((a.den * a.den : ℤ) : ℚ) := by
    push_cast
    exact mul_self_pos.mpr (by exact_mod_cast ha)
  have hb2 : (0 : ℚ) < ((b.den * b.den : ℤ) : ℚ) := by
    push_cast
    exact mul_self_pos.mpr (by exact_mod_cast hb)
  rw [div_le_div_iff₀ ha2 hb2]
  constructor
  · intro h
    exact_mod_cast h
  · intro h
    exact_mod_cast h

theorem pyTrunc_eq_floor (f : PyFloat) (hn : 0 ≤ f.num) (hd : 0 < f.den) :
    pyTrunc f = ⌊f.toRat⌋ := by
  obtain ⟨d, hdeq⟩ : ∃ d : ℕ, f.den = (d : ℤ) :=
    ⟨f.den.toNat, (Int.toNat_of_nonneg hd.le).symm⟩
  unfold pyTrunc PyFloat.toRat
  rw [hdeq, Int.tdiv_eq_ediv hn (by omega)]
  rw [show (((d : ℤ) : ℚ)) = ((d : ℕ) : ℚ) by push_cast; rfl]
  exact (Rat.floor_intCast_div_natCast f.num d).symm

/-- Claim C2 counterexample: for a source frame rate of 29.95 frames
per second and a sampling interval of 1 second the code computes
frame_interval = int(29.95 * 1) = 29, while rounding to nearest gives
round(29.95) = 30.  The step is obtained by truncation toward zero
(Python int()), not by rounding to nearest. -/
theorem C2_counterexample :
    frameStep ⟨599, 20⟩ ⟨1, 1⟩ = 29 ∧
      round ((PyFloat.mk 599 20).toRat * (PyFloat.mk 1 1).toRat) = (30 : ℤ) := by
  constructor
  · decide
  · norm_num [PyFloat.toRat, round_eq]

/-- Claim C2 (amended): the frame step used by extract_frames_from_video
equals Python int(fps * interval), the product truncated toward zero —
for a nonnegative product (in particular whenever fps and interval are
nonnegative) this is the floor of the exact product, not its rounding
to nearest. -/
theorem C2_amended (fps t : PyFloat) (hnum : 0 ≤ (fps.mul t).num)
    (hden : 0 < (fps.mul t).den) :
    frameStep fps t = ⌊fps.toRat * t.toRat⌋ := by
  rw [← toRat_mul]
  exact pyTrunc_eq_floor _ hnum hden

/-- Witness for C2_amended at fps = 29.95, interval = 1. -/
theorem C2_amended_witness :
    0 ≤ ((PyFloat.mk 599 20).mul ⟨1, 1⟩).num ∧
    0 < ((PyFloat.mk 599 20).mul ⟨1, 1⟩).den ∧
    frameStep ⟨599, 20⟩ ⟨1, 1⟩ = ⌊(PyFloat.mk 599 20).toRat * (PyFloat.mk 1 1).toRat⌋ :=
  ⟨by decide, by decide, C2_amended ⟨599, 20⟩ ⟨1, 1⟩ (by decide) (by decide)⟩

/-- Claim C1 (amended): for a video with N >= 1 consumable frames and
computed FrameStep S >= 1, provided the declared total frame count of
the container metadata is nonzero, the call returns
savedCount = ceil(N / S) together with the destination directory. -/
theorem C1_amended (v : Video) (t : PyFloat) (d : String)
    (_hN : 1 ≤ v.frames.length) (hS : 1 ≤ frameStep v.fps t)
    (htot : v.declaredTotal ≠ 0) :
    (extract_frames_from_video v t d).ret
      = some (ceilDiv v.frames.length (frameStep v.fps t).toNat, d) := by
  have hfi : frameStep v.fps t ≠ 0 := by omega
  have hcoe : frameStep v.fps t = (((frameStep v.fps t).toNat : ℕ) : ℤ) := by omega
  have hSpos : 0 < (frameStep v.fps t).toNat := by omega
  simp only [extract_frames_from_video]
  rw [runLoop_full _ _ hfi htot]
  simp only []
  rw [hcoe, hitsBelow_coe, hitsN_length _ _ hSpos, Int.toNat_natCast]

/-- Claim C1 counterexample: a source with exactly one consumable frame
(N = 1) whose container metadata declares 0 total frames, fps 1 and
interval 1 (so FrameStep = 1 >= 1): the call raises ZeroDivisionError
while computing the progress fraction and returns nothing, instead of
returning savedCount = ceil(1/1) = 1. -/
theorem C1_counterexample :
    1 ≤ (Video.mk [[3]] ⟨1, 1⟩ 0).frames.length ∧
    1 ≤ frameStep (Video.mk [[3]] ⟨1, 1⟩ 0).fps ⟨1, 1⟩ ∧
    (extract_frames_from_video ⟨[[3]], ⟨1, 1⟩, 0⟩ ⟨1, 1⟩ "out").ret = none := by
  refine ⟨by decide, by decide, by decide⟩

/-- Witness for C1_amended: 5 frames, fps 2, interval 1 (step 2),
declared total 5: savedCount = ceil(5/2) = 3. -/
theorem C1_amended_witness :
    1 ≤ (Video.mk [[1], [2], [3], [4], [5]] ⟨2, 1⟩ 5).frames.length ∧
    1 ≤ frameStep (PyFloat.mk 2 1) ⟨1, 1⟩ ∧
    (5 : ℤ) ≠ 0 ∧
    (extract_frames_from_video ⟨[[1], [2], [3], [4], [5]], ⟨2, 1⟩, 5⟩ ⟨1, 1⟩ "out").ret
      = some (ceilDiv 5 (frameStep (PyFloat.mk 2 1) ⟨1, 1⟩).toNat, "out") :=
  ⟨by decide, by decide, by decide,
    C1_amended ⟨[[1], [2], [3], [4], [5]], ⟨2, 1⟩, 5⟩ ⟨1, 1⟩ "out"
      (by decide) (by decide) (by decide)⟩

/-- Claim C6: a source yielding zero consumable frames makes
extract_frames_from_video return savedCount 0 together with the
destination directory path without raising, for every interval value
(including those for which the computed FrameStep is 0), every frame
rate and every declared total. -/
theorem C6_empty_source (v : Video) (t : PyFloat) (d : String)
    (h : v.frames = []) :
    (extract_frames_from_video v t d).ret = some (0, d) ∧
    (extract_frames_from_video v t d).error = none := by
  unfold extract_frames_from_video
  rw [h]
  exact ⟨rfl, rfl⟩

/-- Witness for C6_empty_source: empty source, fps 0 (so FrameStep 0),
declared total 0. -/
theorem C6_empty_source_witness :
    (Video.mk [] ⟨0, 1⟩ 0).frames = [] ∧
    ((extract_frames_from_video ⟨[], ⟨0, 1⟩, 0⟩ ⟨0, 1⟩ "dir").ret = some (0, "dir") ∧
      (extract_frames_from_video ⟨[], ⟨0, 1⟩, 0⟩ ⟨0, 1⟩ "dir").error = none) :=
  ⟨rfl, C6_empty_source ⟨[], ⟨0, 1⟩, 0⟩ ⟨0, 1⟩ "dir" rfl⟩

/-- Claim C9: extraction is deterministic — running it twice on the
same video with the same interval into two fresh output directories
produces identical saved file names and byte contents in the same
order, identical counters and progress history, and identical error
behavior; the returned saved count is also identical. -/
theorem C9_deterministic (v : Video) (t : PyFloat) (d1 d2 : String) :
    (extract_frames_from_video v t d1).state = (extract_frames_from_video v t d2).state ∧
    (extract_frames_from_video v t d1).error = (extract_frames_from_video v t d2).error ∧
    Option.map Prod.fst (extract_frames_from_video v t d1).ret
      = Option.map Prod.fst (extract_frames_from_video v t d2).ret := by
  unfold extract_frames_from_video
  refine ⟨rfl, rfl, ?_⟩
  cases h : (runLoop (frameStep v.fps t) v.declaredTotal initState v.frames).2 <;>
    simp [h]

/-- Claim C4, behavior of the code at the failing input: with fps 30
and a non-positive interval 0 the computed frame step is
int(30 * 0) = 0, and on a source with one consumable frame the first
loop iteration raises an untyped ZeroDivisionError at
frame_count % frame_interval; nothing in the code constructs a typed
InvalidInput error. -/
theorem C4_code_behavior :
    frameStep ⟨30, 1⟩ ⟨0, 1⟩ = 0 ∧
    (extract_frames_from_video ⟨[[5]], ⟨30, 1⟩, 1⟩ ⟨0, 1⟩ "out").error
        = some .zeroDivisionError ∧
    (extract_frames_from_video ⟨[[5]], ⟨30, 1⟩, 1⟩ ⟨0, 1⟩ "out").ret = none := by
  refine ⟨by decide, by decide, by decide⟩

/-- Claim C5 counterexample: a source with one consumable frame whose
declared total frame count is 0 (misreported metadata): the progress
fraction frame_count / total_frames is not computed without error —
the loop raises ZeroDivisionError after consuming the first frame. -/
theorem C5_counterexample :
    (extract_frames_from_video ⟨[[9]], ⟨1, 1⟩, 0⟩ ⟨1, 1⟩ "p").error
      = some .zeroDivisionError := by decide

/-- Claim C5 (amended): provided the computed frame step is nonzero and
the declared total frame count is at least 1, the loop finishes without
error, consumes exactly the frames the source yields (termination on
source exhaustion, never on the declared total, which may be smaller or
larger than the true count), and every progress fraction emitted after
a consumed frame lies in [0, 1]. -/
theorem C5_amended (v : Video) (t : PyFloat) (d : String)
    (hfi : frameStep v.fps t ≠ 0) (htot : 1 ≤ v.declaredTotal) :
    (extract_frames_from_video v t d).error = none ∧
    (extract_frames_from_video v t d).state.frame_count = v.frames.length ∧
    ∀ p ∈ (extract_frames_from_video v t d).state.progress,
      0 ≤ p.toRat ∧ p.toRat ≤ 1 := by
  have htot' : v.declaredTotal ≠ 0 := by omega
  simp only [extract_frames_from_video]
  rw [runLoop_full _ _ hfi htot']
  refine ⟨rfl, rfl, ?_⟩
  intro p hp
  simp only [progList, List.mem_map, List.mem_range] at hp
  obtain ⟨j, hj, rfl⟩ := hp
  have h1 : (PyFloat.mk 1 1).toRat = 1 := by
    unfold PyFloat.toRat
    norm_num
  have hnn : 0 ≤ (PyFloat.mk ((j + 1 : ℕ) : ℤ) v.declaredTotal).toRat := by
    unfold PyFloat.toRat
    apply div_nonneg
    · positivity
    · exact_mod_cast (by omega : (0 : ℤ) ≤ v.declaredTotal)
  unfold PyFloat.minF
  by_cases hle : (PyFloat.mk ((j + 1 : ℕ) : ℤ) v.declaredTotal).leB ⟨1, 1⟩ = true
  · rw [if_pos hle]
    refine ⟨hnn, ?_⟩
    have := (leB_iff_toRat_le _ _ htot' (by norm_num)).mp hle
    rwa [h1] at this
  · rw [if_neg hle, h1]
    norm_num

/-- Claim C3: with FrameStep S >= 1, a consumed frame at source index
i is persisted iff i mod S == 0 (first conjunct: the files on disk are
exactly those of the sampled indices below the number of consumed
frames, each named by its output sequence number i / S); the k-th
saved image is named frame_<NNNN>.jpg with NNNN the zero-padded
4-digit-wide decimal k, its content is source frame k * S (second
conjunct), and the output number k never exceeds the source index
k * S it came from (third conjunct). -/
theorem C3_persist_iff_and_naming (v : Video) (t : PyFloat) (d : String)
    (hS : 1 ≤ frameStep v.fps t) :
    (extract_frames_from_video v t d).state.saved
        = ((List.range (extract_frames_from_video v t d).state.frame_count).filter
            (fun i => decide (i % (frameStep v.fps t).toNat = 0))).map
            (fun i => (frameFilename (i / (frameStep v.fps t).toNat), v.frames.getD i []))
      ∧ (extract_frames_from_video v t d).state.saved
          = (List.range (extract_frames_from_video v t d).state.saved_count).map
              (fun k => (frameFilename k, v.frames.getD (k * (frameStep v.fps t).toNat) []))
      ∧ ∀ k < (extract_frames_from_video v t d).state.saved_count,
          k ≤ k * (frameStep v.fps t).toNat := by
  have hfi : frameStep v.fps t ≠ 0 := by omega
  have hSpos : 0 < (frameStep v.fps t).toNat := by omega
  set S := (frameStep v.fps t).toNat with hSdef
  have hcoe : frameStep v.fps t = (S : ℤ) := by omega
  have hkS : ∀ k : ℕ, k ≤ k * S := fun k => Nat.le_mul_of_pos_right k hSpos
  by_cases htot : v.declaredTotal = 0
  · cases hfr : v.frames with
    | nil =>
      have hout : extract_frames_from_video v t d = ⟨initState, none, some (0, d)⟩ := by
        simp only [extract_frames_from_video]
        rw [hfr]
        rfl
      rw [hout]
      refine ⟨?_, ?_, fun k _ => hkS k⟩
      · simp [initState]
      · simp [initState]
    | cons f fs =>
      have hout : extract_frames_from_video v t d
          = ⟨⟨1, 1, [(frameFilename 0, f)], []⟩, some .zeroDivisionError, none⟩ := by
        simp only [extract_frames_from_video]
        rw [hfr, htot, runLoop_total_zero _ hfi f fs]
      rw [hout]
      refine ⟨?_, ?_, fun k _ => hkS k⟩
      · simp [List.range_succ, Nat.zero_mod, Nat.zero_div]
      · simp [List.range_succ]
  · have hrun : extract_frames_from_video v t d
        = ⟨⟨v.frames.length, (hitsBelow (frameStep v.fps t) v.frames.length).length,
            savedOfI (frameStep v.fps t) v.frames v.frames.length,
            progList v.declaredTotal v.frames.length⟩, none,
           some ((hitsBelow (frameStep v.fps t) v.frames.length).length, d)⟩ := by
      simp only [extract_frames_from_video]
      rw [runLoop_full _ _ hfi htot]
    rw [hrun]
    simp only [savedOfI, hcoe, hitsBelow_coe]
    refine ⟨?_, ?_, fun k _ => hkS k⟩
    · apply List.map_congr_left
      intro i hi
      have hmod : i % S = 0 := by
        have hmem := List.mem_filter.mp hi
        simpa using hmem.2
      rw [hitsN_length _ _ hSpos, ceilDiv_of_mod_eq_zero i S hSpos hmod]
    · rw [hitsN_length _ _ hSpos, hitsN_eq_map _ _ hSpos, List.map_map]
      apply List.map_congr_left
      intro k _
      have hmod : k * S % S = 0 := Nat.mul_mod_left k S
      simp only [Function.comp]
      rw [hitsN_length _ _ hSpos, ceilDiv_of_mod_eq_zero _ S hSpos hmod,
        Nat.mul_div_cancel _ hSpos]

/-- Witness for C3_persist_iff_and_naming: 3 frames, fps 2, interval 1
(step 2), declared total 3. -/
theorem C3_witness :
    1 ≤ frameStep (Video.mk [[1], [2], [3]] ⟨2, 1⟩ 3).fps ⟨1, 1⟩ ∧
    ((extract_frames_from_video ⟨[[1], [2], [3]], ⟨2, 1⟩, 3⟩ ⟨1, 1⟩ "w").state.saved
        = ((List.range (extract_frames_from_video ⟨[[1], [2], [3]], ⟨2, 1⟩, 3⟩ ⟨1, 1⟩
              "w").state.frame_count).filter
            (fun i => decide (i % (frameStep (Video.mk [[1], [2], [3]] ⟨2, 1⟩ 3).fps
              ⟨1, 1⟩).toNat = 0))).map
            (fun i => (frameFilename (i / (frameStep (Video.mk [[1], [2], [3]] ⟨2, 1⟩ 3).fps
              ⟨1, 1⟩).toNat),
                (Video.mk [[1], [2], [3]] ⟨2, 1⟩ 3).frames.getD i []))
      ∧ (extract_frames_from_video ⟨[[1], [2], [3]], ⟨2, 1⟩, 3⟩ ⟨1, 1⟩ "w").state.saved
          = (List.range (extract_frames_from_video ⟨[[1], [2], [3]], ⟨2, 1⟩, 3⟩ ⟨1, 1⟩
              "w").state.saved_count).map
              (fun k => (frameFilename k,
                (Video.mk [[1], [2], [3]] ⟨2, 1⟩ 3).frames.getD
                  (k * (frameStep (Video.mk [[1], [2], [3]] ⟨2, 1⟩ 3).fps ⟨1, 1⟩).toNat) []))
      ∧ ∀ k < (extract_frames_from_video ⟨[[1], [2], [3]], ⟨2, 1⟩, 3⟩ ⟨1, 1⟩
            "w").state.saved_count,
          k ≤ k * (frameStep (Video.mk [[1], [2], [3]] ⟨2, 1⟩ 3).fps ⟨1, 1⟩).toNat) :=
  ⟨by decide, C3_persist_iff_and_naming ⟨[[1], [2], [3]], ⟨2, 1⟩, 3⟩ ⟨1, 1⟩ "w" (by decide)⟩

theorem walkTree_length (t : FSTree) : (walkTree t).length = countFiles t := by
  induction t with
  | file c => rfl
  | dirNil => rfl
  | dirCons n child rest ihc ihr =>
    cases child with
    | file c =>
      simp only [walkTree, countFiles, List.length_cons, ihr]
      omega
    | dirNil =>
      simp only [walkTree, countFiles, List.length_append, List.length_map, ihc, ihr]
      rfl
    | dirCons m c2 r2 =>
      simp only [walkTree, countFiles, List.length_append, List.length_map, ihc, ihr]

theorem validTreeB_parts (n : String) (child rest : FSTree)
    (h : validTreeB (.dirCons n child rest) = true) :
    validNameB n = true ∧ n ∉ namesOf rest ∧
      validTreeB child = true ∧ validTreeB rest = true := by
  simp only [validTreeB, Bool.and_eq_true, Bool.not_eq_true', decide_eq_false_iff_not] at h
  tauto

theorem walkTree_valid (t : FSTree) (ht : validTreeB t = true) :
    ∀ p ∈ walkTree t, p.1 ≠ [] ∧ ∀ c ∈ p.1, validNameB c = true := by
  induction t with
  | file c => intro p hp; simp [walkTree] at hp
  | dirNil => intro p hp; simp [walkTree] at hp
  | dirCons n child rest ihc ihr =>
    obtain ⟨hv1, _, hv3, hv4⟩ := validTreeB_parts n child rest ht
    intro p hp
    cases child with
    | file c =>
      rcases List.mem_cons.mp hp with h | h
      · subst h
        refine ⟨by simp, ?_⟩
        intro c' hc'
        rcases List.mem_singleton.mp hc' with rfl
        exact hv1
      · exact ihr hv4 p h
    | dirNil =>
      simp only [walkTree] at hp
      exact ihr hv4 p (by simpa using hp)
    | dirCons m c2 r2 =>
      rcases List.mem_append.mp hp with h | h
      · obtain ⟨q, hq, rfl⟩ := List.mem_map.mp h
        obtain ⟨hq1, hq2⟩ := ihc hv3 q hq
        refine ⟨by simp, ?_⟩
        intro c' hc'
        rcases List.mem_cons.mp hc' with rfl | hc''
        · exact hv1
        · exact hq2 c' hc''
      · exact ihr hv4 p h

theorem walkTree_head (t : FSTree) :
    ∀ p ∈ walkTree t, ∃ n ∈ namesOf t, p.1.head? = some n := by
  induction t with
  | file c => intro p hp; simp [walkTree] at hp
  | dirNil => intro p hp; simp [walkTree] at hp
  | dirCons n child rest ihc ihr =>
    intro p hp
    cases child with
    | file c =>
      rcases List.mem_cons.mp hp with h | h
      · subst h
        exact ⟨n, by simp [namesOf], rfl⟩
      · obtain ⟨n', hn', hh⟩ := ihr p h
        exact ⟨n', by simp [namesOf, hn'], hh⟩
    | dirNil =>
      simp only [walkTree] at hp
      obtain ⟨n', hn', hh⟩ := ihr p (by simpa using hp)
      exact ⟨n', by simp [namesOf, hn'], hh⟩
    | dirCons m c2 r2 =>
      rcases List.mem_append.mp hp with h | h
      · obtain ⟨q, _, rfl⟩ := List.mem_map.mp h
        exact ⟨n, by simp [namesOf], rfl⟩
      · obtain ⟨n', hn', hh⟩ := ihr p h
        exact ⟨n', by simp [namesOf, hn'], hh⟩

theorem walkTree_paths_nodup (t : FSTree) (ht : validTreeB t = true) :
    ((walkTree t).map Prod.fst).Nodup := by
  induction t with
  | file c => simp [walkTree]
  | dirNil => simp [walkTree]
  | dirCons n child rest ihc ihr =>
    obtain ⟨_, hv2, hv3, hv4⟩ := validTreeB_parts n child rest ht
    cases child with
    | file c =>
      simp only [walkTree, List.map_cons]
      refine List.nodup_cons.mpr ⟨?_, ihr hv4⟩
      intro hmem
      obtain ⟨p, hp, hfst⟩ := List.mem_map.mp hmem
      obtain ⟨n', hn', hh⟩ := walkTree_head rest p hp
      rw [hfst] at hh
      simp only [List.head?_cons, Option.some.injEq] at hh
      exact hv2 (hh ▸ hn')
    | dirNil =>
      simp only [walkTree]
      simpa using ihr hv4
    | dirCons m c2 r2 =>
      simp only [walkTree, List.map_append, List.map_map]
      refine List.Nodup.append ?_ (ihr hv4) ?_
      · have hinj : Function.Injective (fun l => n :: l : List String → List String) := by
          intro a b hab
          simpa using hab
        have := (ihc hv3).map hinj
        simpa [Function.comp] using this
      · intro x hx1 hx2
        obtain ⟨q, _, rfl⟩ := List.mem_map.mp hx1
        obtain ⟨p, hp, hfst⟩ := List.mem_map.mp hx2
        obtain ⟨n', hn', hh⟩ := walkTree_head rest p hp
        rw [hfst] at hh
        simp only [Function.comp, List.head?_cons, Option.some.injEq] at hh
        exact hv2 (hh ▸ hn')

theorem validNameB_parts (s : String) (h : validNameB s = true) :
    s.data ≠ [] ∧ s ≠ ".." ∧ '/' ∉ s.data := by
  simp only [validNameB, Bool.and_eq_true, Bool.not_eq_true'] at h
  obtain ⟨⟨⟨h1, h2⟩, h3⟩, h4⟩ := h
  refine ⟨?_, ?_, ?_⟩
  · simpa [List.isEmpty_iff] using h1
  · simpa using h3
  · simpa using h4

theorem joinRel_cons (c : String) (rest : List String) (h : rest ≠ []) :
    joinRel (c :: rest) = c ++ "/" ++ joinRel rest := by
  cases rest with
  | nil => exact absurd rfl h
  | cons d ds => rfl

theorem joinRel_data_cons (c : String) (d : String) (ds : List String) :
    (joinRel (c :: d :: ds)).data = c.data ++ '/' :: (joinRel (d :: ds)).data := by
  rw [joinRel_cons c (d :: ds) (by simp), String.data_append, String.data_append]
  rw [(by decide : ("/" : String).data = ['/']), List.append_assoc]
  rfl

theorem joinRel_head (c : String) (rest : List String) (hc : c.data ≠ []) :
    (joinRel (c :: rest)).data.head? = c.data.head? := by
  cases rest with
  | nil => rfl
  | cons d ds =>
    rw [joinRel_data_cons]
    cases hcd : c.data with
    | nil => exact absurd hcd hc
    | cons ch tl => simp

theorem slash_mem_joinRel (c d : String) (ds : List String) :
    '/' ∈ (joinRel (c :: d :: ds)).data := by
  rw [joinRel_data_cons]
  simp

theorem sep_split (a x : List Char) :
    ∀ b y : List Char, '/' ∉ a → '/' ∉ b →
      a ++ '/' :: x = b ++ '/' :: y → a = b ∧ x = y := by
  induction a with
  | nil =>
    intro b y _ hb h
    cases b with
    | nil => simpa using h
    | cons e es =>
      simp only [List.nil_append, List.cons_append, List.cons.injEq] at h
      exact absurd (h.1.symm ▸ List.mem_cons_self e es) hb
  | cons e es ih =>
    intro b y ha hb h
    cases b with
    | nil =>
      simp only [List.cons_append, List.nil_append, List.cons.injEq] at h
      exact absurd (h.1 ▸ List.mem_cons_self e es) ha
    | cons e2 es2 =>
      simp only [List.cons_append, List.cons.injEq] at h
      obtain ⟨rfl, h2⟩ := h
      have ha' : '/' ∉ es := fun hm => ha (List.mem_cons_of_mem _ hm)
      have hb' : '/' ∉ es2 := fun hm => hb (List.mem_cons_of_mem _ hm)
      obtain ⟨rfl, rfl⟩ := ih es2 y ha' hb' h2
      exact ⟨rfl, rfl⟩

theorem joinRel_inj (p : List String) :
    ∀ q : List String,
      (∀ c ∈ p, validNameB c = true) → (∀ c ∈ q, validNameB c = true) →
      joinRel p = joinRel q → p = q := by
  induction p with
  | nil =>
    intro q _ hq h
    cases q with
    | nil => rfl
    | cons d ds =>
      exfalso
      obtain ⟨hd1, _, _⟩ := validNameB_parts d (hq d (List.mem_cons_self d ds))
      have : (joinRel (d :: ds)).data.head? = d.data.head? := joinRel_head d ds hd1
      rw [← h] at this
      cases hdd : d.data with
      | nil => exact hd1 hdd
      | cons ch tl =>
        rw [hdd] at this
        simp only [List.head?_cons] at this
        exact Option.noConfusion ((rfl : (joinRel []).data.head? = none) ▸ this)
  | cons c cs ih =>
    intro q hp hq h
    obtain ⟨hc1, _, hc3⟩ := validNameB_parts c (hp c (List.mem_cons_self c cs))
    cases q with
    | nil =>
      exfalso
      have : (joinRel (c :: cs)).data.head? = c.data.head? := joinRel_head c cs hc1
      rw [h] at this
      cases hcd : c.data with
      | nil => exact hc1 hcd
      | cons ch tl =>
        rw [hcd] at this
        simp only [List.head?_cons] at this
        exact Option.noConfusion ((rfl : (joinRel []).data.head? = none) ▸ this.symm)
    | cons d ds =>
      obtain ⟨hd1, _, hd3⟩ := validNameB_parts d (hq d (List.mem_cons_self d ds))
      cases cs with
      | nil =>
        cases ds with
        | nil =>
          have : c = d := by simpa [joinRel] using h
          rw [this]
        | cons d2 ds2 =>
          exfalso
          have hmem : '/' ∈ (joinRel (d :: d2 :: ds2)).data := slash_mem_joinRel d d2 ds2
          rw [← h] at hmem
          exact hc3 (by simpa [joinRel] using hmem)
      | cons c2 cs2 =>
        cases ds with
        | nil =>
          exfalso
          have hmem : '/' ∈ (joinRel (c :: c2 :: cs2)).data := slash_mem_joinRel c c2 cs2
          rw [h] at hmem
          exact hd3 (by simpa [joinRel] using hmem)
        | cons d2 ds2 =>
          have hdata : c.data ++ '/' :: (joinRel (c2 :: cs2)).data
              = d.data ++ '/' :: (joinRel (d2 :: ds2)).data := by
            rw [← joinRel_data_cons, ← joinRel_data_cons, h]
          obtain ⟨h1, h2⟩ := sep_split c.data (joinRel (c2 :: cs2)).data d.data
            (joinRel (d2 :: ds2)).data hc3 hd3 hdata
          have hcd : c = d := String.ext h1
          have hrest : c2 :: cs2 = d2 :: ds2 :=
            ih (d2 :: ds2) (fun x hx => hp x (List.mem_cons_of_mem c hx))
              (fun x hx => hq x (List.mem_cons_of_mem d hx)) (String.ext h2)
          rw [hcd, hrest]

/-- Claim C7: for a well-formed source directory the archive holds
exactly one entry per regular file under it (no filtering, no
exclusions), and each entry name is the file's path relative to the
source root: the separator-joined nonempty sequence of its well-formed
components, with no parent-directory component .. and no leading path
separator. -/
theorem C7_entry_count_and_names (tmpdir zip_name : String) (t : FSTree)
    (ht : validTreeB t = true) :
    (create_zip_from_folder tmpdir t zip_name).2.length = countFiles t ∧
    ∀ e ∈ (create_zip_from_folder tmpdir t zip_name).2, ∃ p,
      p ∈ walkTree t ∧ e = (joinRel p.1, p.2) ∧ p.1 ≠ [] ∧
      (∀ c ∈ p.1, c ≠ ".." ∧ c.data ≠ [] ∧ '/' ∉ c.data) ∧
      (joinRel p.1).data.head? ≠ some '/' := by
  constructor
  · simp [create_zip_from_folder, zipEntries, walkTree_length]
  · intro e he
    simp only [create_zip_from_folder, zipEntries] at he
    obtain ⟨p, hp, rfl⟩ := List.mem_map.mp he
    obtain ⟨hp1, hp2⟩ := walkTree_valid t ht p hp
    refine ⟨p, hp, rfl, hp1, ?_, ?_⟩
    · intro c hc
      obtain ⟨h1, h2, h3⟩ := validNameB_parts c (hp2 c hc)
      exact ⟨h2, h1, h3⟩
    · obtain ⟨c0, cs, hpeq⟩ := List.exists_cons_of_ne_nil hp1
      obtain ⟨h1, _, h3⟩ := validNameB_parts c0 (hp2 c0 (by rw [hpeq]; simp))
      rw [hpeq, joinRel_head c0 cs h1]
      cases hcd : c0.data with
      | nil => exact absurd hcd h1
      | cons ch tl =>
        simp only [List.head?_cons, ne_eq, Option.some.injEq]
        intro hch
        exact h3 (by rw [hcd, hch]; exact List.mem_cons_self _ _)

/-- Witness for C7_entry_count_and_names on sampleTree. -/
theorem C7_witness :
    validTreeB sampleTree = true ∧
    ((create_zip_from_folder "/tmp" sampleTree "z.zip").2.length = countFiles sampleTree ∧
      ∀ e ∈ (create_zip_from_folder "/tmp" sampleTree "z.zip").2, ∃ p,
        p ∈ walkTree sampleTree ∧ e = (joinRel p.1, p.2) ∧ p.1 ≠ [] ∧
        (∀ c ∈ p.1, c ≠ ".." ∧ c.data ≠ [] ∧ '/' ∉ c.data) ∧
        (joinRel p.1).data.head? ≠ some '/') :=
  ⟨by decide, C7_entry_count_and_names "/tmp" "z.zip" sampleTree (by decide)⟩

/-- Claim C8: archive round-trip.  For a well-formed source directory
the archive's entry names are pairwise distinct — so unpacking writes
every entry exactly once, with no overwriting — and an entry named
joinRel comps with bytes bs is in the archive iff the file comps with
content bs is under the source directory: unpacking reproduces every
file with its relative path and byte content intact (ZIP_DEFLATED is
lossless). -/
theorem C8_roundtrip (tmpdir zip_name : String) (t : FSTree)
    (ht : validTreeB t = true) :
    ((create_zip_from_folder tmpdir t zip_name).2.map Prod.fst).Nodup ∧
    ∀ comps bs, (∀ c ∈ comps, validNameB c = true) →
      ((comps, bs) ∈ walkTree t ↔
        (joinRel comps, bs) ∈ (create_zip_from_folder tmpdir t zip_name).2) := by
  have hvalid := walkTree_valid t ht
  constructor
  · simp only [create_zip_from_folder, zipEntries, List.map_map]
    have hkey : (walkTree t).map (Prod.fst ∘ fun p => (joinRel p.1, p.2))
        = ((walkTree t).map Prod.fst).map joinRel := by
      simp [List.map_map, Function.comp]
    rw [hkey]
    apply List.Nodup.map_on
    · intro x hx y hy hxy
      obtain ⟨px, hpx, hfx⟩ := List.mem_map.mp hx
      obtain ⟨py, hpy, hfy⟩ := List.mem_map.mp hy
      exact joinRel_inj x y
        (by rw [← hfx]; exact (hvalid px hpx).2)
        (by rw [← hfy]; exact (hvalid py hpy).2) hxy
    · exact walkTree_paths_nodup t ht
  · intro comps bs hcomps
    constructor
    · intro hmem
      simp only [create_zip_from_folder, zipEntries]
      exact List.mem_map.mpr ⟨(comps, bs), hmem, rfl⟩
    · intro hmem
      simp only [create_zip_from_folder, zipEntries] at hmem
      obtain ⟨p, hp, heq⟩ := List.mem_map.mp hmem
      have h1 : joinRel p.1 = joinRel comps := congrArg Prod.fst heq
      have h2 : p.2 = bs := congrArg Prod.snd heq
      have hcompeq : p.1 = comps :=
        joinRel_inj p.1 comps (hvalid p hp).2 hcomps h1
      have : p = (comps, bs) := by
        rw [Prod.ext_iff]
        exact ⟨hcompeq, h2⟩
      rwa [this] at hp

/-- Witness for C8_roundtrip on sampleTree. -/
theorem C8_witness :
    validTreeB sampleTree = true ∧
    (((create_zip_from_folder "/tmp" sampleTree "z.zip").2.map Prod.fst).Nodup ∧
      ∀ comps bs, (∀ c ∈ comps, validNameB c = true) →
        ((comps, bs) ∈ walkTree sampleTree ↔
          (joinRel comps, bs) ∈ (create_zip_from_folder "/tmp" sampleTree "z.zip").2)) :=
  ⟨by decide, C8_roundtrip "/tmp" "z.zip" sampleTree (by decide)⟩

/-- Claim C10: two calls with the default archive name
extracted_frames.zip return one and the same fixed path — the process
temporary directory joined with the archive name, independent of
either source directory — and after the second call the file stored at
that path is the second call's archive: the later call overwrites the
earlier call's artifact rather than producing a fresh per-run file. -/
theorem C10_fixed_path_overwrite (fs : TempFS) (tmpdir : String) (f1 f2 : FSTree) :
    (create_zip_run fs tmpdir f1 "extracted_frames.zip").1
        = joinPath tmpdir "extracted_frames.zip" ∧
    (create_zip_run (create_zip_run fs tmpdir f1 "extracted_frames.zip").2
        tmpdir f2 "extracted_frames.zip").1
        = (create_zip_run fs tmpdir f1 "extracted_frames.zip").1 ∧
    lookupTempFile
        (create_zip_run (create_zip_run fs tmpdir f1 "extracted_frames.zip").2
          tmpdir f2 "extracted_frames.zip").2
        (joinPath tmpdir "extracted_frames.zip")
        = some (zipEntries f2) := by
  refine ⟨rfl, rfl, ?_⟩
  simp [create_zip_run, create_zip_from_folder, writeTempFile, lookupTempFile]

/-- Witness for C5_amended: two frames, fps 1, interval 1, declared
total 1 (smaller than the true frame count). -/
theorem C5_amended_witness :
    frameStep (Video.mk [[1], [2]] ⟨1, 1⟩ 1).fps ⟨1, 1⟩ ≠ 0 ∧
    1 ≤ (Video.mk [[1], [2]] ⟨1, 1⟩ 1).declaredTotal ∧
    ((extract_frames_from_video ⟨[[1], [2]], ⟨1, 1⟩, 1⟩ ⟨1, 1⟩ "q").error = none ∧
      (extract_frames_from_video ⟨[[1], [2]], ⟨1, 1⟩, 1⟩ ⟨1, 1⟩ "q").state.frame_count
        = (Video.mk [[1], [2]] ⟨1, 1⟩ 1).frames.length ∧
      ∀ p ∈ (extract_frames_from_video ⟨[[1], [2]], ⟨1, 1⟩, 1⟩ ⟨1, 1⟩ "q").state.progress,
        0 ≤ p.toRat ∧ p.toRat ≤ 1) :=
  ⟨by decide, by decide,
    C5_amended ⟨[[1], [2]], ⟨1, 1⟩, 1⟩ ⟨1, 1⟩ "q" (by decide) (by decide)⟩
